import Mathlib

/-!
# FoxFire-Regress: the sub-gradient (ISTA) solver core

A shallow embedding of `Solvers/SubGradientDescent/viennacl_subgradient_descent.hpp`
(class `foxfire::internal::CL_SubGradientSolver<T>`).

Conventions of the embedding.

* The element type `T` (C `float` or `double`) is idealised as a linearly ordered
  field `K`: every arithmetic operation is exact.  All definitions are generic in
  `K`, so they evaluate over `ℚ` and specialise to `ℝ`.
* A `viennacl::vector<T>` of size `n` is a function `Fin n → K`; a dense
  `viennacl::matrix<T>` with `m` rows and `n` columns is a function
  `Fin m → Fin n → K`.  Incompatible dimensions are excluded by the types.
* An OpenCL buffer passed to a kernel is the vector itself; a kernel work-item is
  a function from the buffers and its global id to the updated output buffer.
* A `viennacl::ocl::kernel` object is a record of what decides a dispatch: its
  program, its global work size and the arguments bound to it.  The source never
  sets a work size, so the work size is whatever the library gave the kernel
  object when it was created; it is carried as data and left unconstrained.
* Division is the field's division; the source divides by the curvature `L`, so
  the embedding agrees with the source for `L ≠ 0` only.
-/

namespace foxfire

namespace internal

variable {K : Type*} [LinearOrderedField K] {m n : ℕ}

/-! ## The linear-algebra engine (ViennaCL), consumed by the solver -/

/-- The dense matrix-vector product `viennacl::linalg::prod( X, v )`. -/
def prod (X : Fin m → Fin n → K) (v : Fin n → K) : Fin m → K :=
  fun j => ∑ k, X j k * v k

/-- The transposed matrix `viennacl::trans( X )`. -/
def trans {α : Type*} (X : Fin m → Fin n → α) : Fin n → Fin m → α :=
  fun i j => X j i

/-- The inner product `viennacl::linalg::inner_prod( u, v )`. -/
def inner_prod (u v : Fin n → K) : K :=
  ∑ i, u i * v i

/-- Modelled from the spec: `norm_sqr` is not a ViennaCL function; it comes from
one of the project headers the file includes (`OpenCL_Generics/cl_generics.h`,
`Generic/generics.hpp`), whose text is not available.  The specification lists it
as the engine's squared norm: `f_beta` returns "the squared Euclidean norm of the
residual", the sum of the squares of the elements. -/
def norm_sqr (v : Fin n → K) : K :=
  ∑ i, v i * v i

/-! ## The two embedded kernel programs -/

/-- The two OpenCL programs embedded in the class as string members. -/
inductive Program where
  | f_softthreshold_kernel
  | softthreshold_kernel
  deriving DecidableEq, Repr

/-- The value a work-item of `SoftThreshold` stores, as a function of the element
`input[i]` it loads (`X_i_j`) and of `threshold[0]`.  The two programs differ in
the C element type only (`float` against `double`). -/
def Program.SoftThreshold : Program → K → K → K
  | .f_softthreshold_kernel, X_i_j, threshold_0 =>
      let signum : K := if X_i_j > 0 then 1 else (if X_i_j < 0 then -1 else 0)
      let fragment : K := |X_i_j| - threshold_0
      let pos_part : K := if fragment ≥ 0 then fragment else 0
      signum * pos_part
  | .softthreshold_kernel, X_i_j, threshold_0 =>
      let signum : K := if X_i_j > 0 then 1 else (if X_i_j < 0 then -1 else 0)
      let fragment : K := |X_i_j| - threshold_0
      let pos_part : K := if fragment ≥ 0 then fragment else 0
      signum * pos_part

/-- One work-item of the kernel `SoftThreshold` of program `p`, with global id `i`:
it loads `input[i]` and `threshold[0]` and stores into `output[i]`; every other
cell of `output` keeps its contents. -/
def Program.work_item (p : Program) (input output : Fin n → K) (threshold : Fin 1 → K)
    (i : Fin n) : Fin n → K :=
  Function.update output i (p.SoftThreshold (input i) (threshold 0))

/-- The arguments bound to a kernel object: the three buffers of `SoftThreshold`,
with their contents.  `input` and `output` are vectors of `size` elements,
`threshold` is a vector of one element. -/
structure KernelArgs (K : Type*) where
  size : ℕ
  input : Fin size → K
  output : Fin size → K
  threshold : Fin 1 → K

/-- A `viennacl::ocl::kernel` object, as far as the solver observes it: the program
it is an entry point of, its global work size, and the arguments bound by the last
`operator()`.  Nothing in the source sets `global_work_size`: it is the value the
library gave the kernel object when it was created, and it does not depend on the
size of the vectors of any call. -/
structure Kernel (K : Type*) where
  program : Program
  global_work_size : ℕ
  args : Option (KernelArgs K)

/-- The call `kernel( input, output, threshold )` (`operator()`): it binds the three
arguments, replacing whatever was bound before, and yields the kernel object. -/
def Kernel.call (k : Kernel K) (input output : Fin n → K) (threshold : Fin 1 → K) :
    Kernel K :=
  { k with args := some { size := n, input := input, output := output, threshold := threshold } }

/-- One launch of the kernel `SoftThreshold` of program `p`: the work-items with
global ids `0, …, global_work_size − 1`, run here in the order of the ids.  The
kernel has no size argument, no bound check and no stride loop, so a cell of
`output` is written only if its index is the id of a work-item.  A work-item whose
id is not an index of the vectors addresses memory past their elements; it changes
none of their cells. -/
def Program.launch (p : Program) (global_work_size : ℕ) (input output : Fin n → K)
    (threshold : Fin 1 → K) : Fin n → K :=
  (List.range global_work_size).foldl
    (fun out id => if h : id < n then p.work_item input out threshold ⟨id, h⟩ else out)
    output

/-- The dispatch `viennacl::ocl::enqueue( kernel )`: one launch of the kernel
object's program, with the kernel object's global work size, on the arguments
bound to it.  The result is the contents of the buffers once the dispatch has
completed; there is none when no arguments are bound. -/
def enqueue (k : Kernel K) : Option (KernelArgs K) :=
  k.args.map fun a =>
    { a with output := k.program.launch k.global_work_size a.input a.output a.threshold }

/-- What a vector of `n` elements holds after a dispatch in which its buffer was
bound as `output`: cell by cell, the contents of that buffer. -/
def after_dispatch (host : Fin n → K) : Option (KernelArgs K) → Fin n → K
  | some a => fun i => if h : i.val < a.size then a.output ⟨i.val, h⟩ else host i
  | none => host

/-! ## The solver -/

/-- The element types that pass `static_assert(std::is_floating_point< T >::value)`. -/
inductive FloatingPoint where
  | float
  | double
  | long_double
  deriving DecidableEq, Repr

/-- The data members of a `CL_SubGradientSolver<T>`: the kernel object that
`soft_thres_kernel_` points to, and the seed curvature `L_0`. -/
structure CL_SubGradientSolver (K : Type*) where
  soft_thres_kernel_ : Kernel K
  L_0 : K

/-- The program the constructor adds to the context for element type `T`:
`if ( is_same< T , float > ) ... else if ( is_same< T , double > ) ...`, with no
final `else`, so no program is selected for `long double`. -/
def select_program : FloatingPoint → Option Program
  | .float => some .f_softthreshold_kernel
  | .double => some .softthreshold_kernel
  | .long_double => none

/-- The element type of the buffers a program's `SoftThreshold` kernel is declared
with: `__global const float*` in `f_softthreshold_kernel`, `__global const double*`
in `softthreshold_kernel`. -/
def Program.element_type : Program → FloatingPoint
  | .f_softthreshold_kernel => .float
  | .softthreshold_kernel => .double

/-- The constructor `CL_SubGradientSolver( T L )`: it stores `L` in `L_0` and
fetches the entry point `SoftThreshold` of the selected program.  When no program
was selected the pointer `program_` is read uninitialised; that outcome is
`none`.  `global_work_size` is the work size the library gives the kernel object
it creates; the constructor does not set one, and no arguments are bound yet. -/
def CL_SubGradientSolver.construct (T : FloatingPoint) (L : K) (global_work_size : ℕ) :
    Option (CL_SubGradientSolver K) :=
  (select_program T).map fun program_ =>
    { soft_thres_kernel_ :=
        { program := program_, global_work_size := global_work_size, args := none }
      L_0 := L }

/-- The method `f_beta( X, Y, Beta )`. -/
def f_beta (_self : CL_SubGradientSolver K) (X : Fin m → Fin n → K) (Y : Fin m → K)
    (Beta : Fin n → K) : K :=
  let scratch : Fin m → K := prod X Beta - Y
  norm_sqr scratch

/-- The method `f_beta_tilda( X, Y, Beta, Beta_prime, L )`. -/
def f_beta_tilda (_self : CL_SubGradientSolver K) (X : Fin m → Fin n → K) (Y : Fin m → K)
    (Beta Beta_prime : Fin n → K) (L : K) : K :=
  let f_beta : Fin m → K := prod X Beta_prime - Y
  let taylor_term_0 : K := norm_sqr f_beta
  let f_grad : Fin n → K := (2 : K) • prod (trans X) f_beta
  let beta_diff : Fin n → K := Beta - Beta_prime
  let taylor_term_1 : K := inner_prod f_grad beta_diff
  let taylor_term_2 : K := L / 2 * norm_sqr beta_diff
  taylor_term_0 + taylor_term_1 + taylor_term_2

/-- The local variables of `update_beta_ista` when it returns. -/
structure IstaLocals (K : Type*) (m n : ℕ) where
  thres_ : Fin 1 → K
  f_beta : Fin m → K
  f_grad : Fin n → K
  beta_to_modify : Fin n → K
  beta_output : Fin n → K

/-- The body of `update_beta_ista( X, Y, Beta, L, thres )`, keeping every local.
`beta_output` starts as a copy of `beta_to_modify`; the kernel object is called
with `( beta_to_modify, beta_output, thres_ )` and enqueued, and `beta_output` is
read once the dispatch has completed. -/
def update_beta_ista_locals (self : CL_SubGradientSolver K) (X : Fin m → Fin n → K)
    (Y : Fin m → K) (Beta : Fin n → K) (L thres : K) : IstaLocals K m n :=
  let thres_ : Fin 1 → K := fun _ => thres / L
  let f_beta : Fin m → K := prod X Beta - Y
  let f_grad : Fin n → K := (2 : K) • prod (trans X) f_beta
  let beta_to_modify : Fin n → K := Beta - (1 / L) • f_grad
  let beta_output : Fin n → K := beta_to_modify
  let kernel : Kernel K := self.soft_thres_kernel_.call beta_to_modify beta_output thres_
  { thres_ := thres_
    f_beta := f_beta
    f_grad := f_grad
    beta_to_modify := beta_to_modify
    beta_output := after_dispatch beta_output (enqueue kernel) }

/-- The method `update_beta_ista( X, Y, Beta, L, thres )`: the vector it returns. -/
def update_beta_ista (self : CL_SubGradientSolver K) (X : Fin m → Fin n → K)
    (Y : Fin m → K) (Beta : Fin n → K) (L thres : K) : Fin n → K :=
  (update_beta_ista_locals self X Y Beta L thres).beta_output

/-- The soft-thresholding operator as the specification writes it:
`sign(v) · max(|v| − t, 0)`, with `sign(0) = 0`. -/
def soft_threshold_spec (v t : K) : K :=
  (SignType.sign v : K) * max (|v| - t) 0

/-- The textbook ISTA step for the Lasso objective `½·‖X·Beta − Y‖² + lam·‖Beta‖₁`
with step size `eta`: soft-thresholding at `eta·lam`, element by element, of
`Beta − eta·Xᵗ·(X·Beta − Y)`. -/
def textbook_ista_step (X : Fin m → Fin n → K) (Y : Fin m → K) (Beta : Fin n → K)
    (eta lam : K) : Fin n → K :=
  fun i => soft_threshold_spec
    (Beta i - eta * ∑ j, X j i * ((∑ k, X j k * Beta k) - Y j)) (eta * lam)

/-- The ℓ1 norm `‖v‖₁`, the penalty of the Lasso objective.  The solver never
computes it; it is the quantity the step is measured against. -/
def norm_1 (v : Fin n → K) : K :=
  ∑ i, |v i|

/-! ## Helper lemmas -/

theorem prod_apply (X : Fin m → Fin n → K) (v : Fin n → K) (j : Fin m) :
    prod X v j = ∑ k, X j k * v k := rfl

theorem trans_apply {α : Type*} (X : Fin m → Fin n → α) (i : Fin n) (j : Fin m) :
    trans X i j = X j i := rfl

/-- Both programs compute the same value: the two kernel bodies are the same
expression. -/
theorem Program.SoftThreshold_eq (p : Program) (v t : K) :
    p.SoftThreshold v t
      = (if v > 0 then 1 else (if v < 0 then -1 else 0))
          * (if |v| - t ≥ 0 then |v| - t else 0) := by
  cases p <;> rfl

/-- The kernel value in closed form: `sign(v) · max(|v| − t, 0)`. -/
theorem Program.SoftThreshold_eq_spec (p : Program) (v t : K) :
    p.SoftThreshold v t = soft_threshold_spec v t := by
  rw [Program.SoftThreshold_eq, soft_threshold_spec]
  congr 1
  · rcases lt_trichotomy v 0 with h | h | h
    · simp [h, not_lt.mpr h.le]
    · simp [h]
    · simp [h]
  · by_cases h : 0 ≤ |v| - t
    · simp [h]
    · simp [h, max_eq_right (not_le.mp h).le]

/-- The closed form by cases: `0` inside the band `|v| ≤ t`, and `v − sign(v)·t`
outside of it. -/
theorem soft_threshold_spec_cases (v t : K) :
    soft_threshold_spec v t = if |v| ≤ t then 0 else v - (SignType.sign v : K) * t := by
  unfold soft_threshold_spec
  by_cases h : |v| ≤ t
  · rw [if_pos h, max_eq_right (sub_nonpos.mpr h), mul_zero]
  · rw [if_neg h, max_eq_left (sub_nonneg.mpr (not_le.mp h).le), mul_sub]
    congr 1
    rcases lt_trichotomy v 0 with hv | hv | hv
    · simp [hv, abs_of_neg hv]
    · simp [hv]
    · simp [hv, abs_of_pos hv]

/-- Running the work-items of a list `l` of global ids: a cell of `output` holds
the kernel value if its index is in `l`, and its initial contents otherwise. -/
theorem foldl_work_item (p : Program) (input : Fin n → K) (threshold : Fin 1 → K)
    (l : List ℕ) (output : Fin n → K) (i : Fin n) :
    l.foldl (fun out id => if h : id < n then p.work_item input out threshold ⟨id, h⟩ else out)
        output i
      = if i.val ∈ l then p.SoftThreshold (input i) (threshold 0) else output i := by
  induction l generalizing output with
  | nil => simp
  | cons a l ih =>
    rw [List.foldl_cons, ih]
    by_cases hl : i.val ∈ l
    · simp [hl]
    · by_cases ha : i.val = a
      · subst ha
        simp [hl, Program.work_item]
      · have hne : ∀ h : a < n, i ≠ ⟨a, h⟩ := fun h e => ha (congrArg Fin.val e)
        by_cases han : a < n
        · simp [hl, ha, han, Program.work_item, Function.update_noteq (hne han)]
        · simp [hl, ha, han]

/-- After a launch, a cell of `output` holds the kernel value of the element of
`input` with the same index if a work-item has that index as its id, and its
previous contents otherwise. -/
theorem Program.launch_apply (p : Program) (global_work_size : ℕ) (input output : Fin n → K)
    (threshold : Fin 1 → K) (i : Fin n) :
    p.launch global_work_size input output threshold i
      = if i.val < global_work_size then p.SoftThreshold (input i) (threshold 0)
        else output i := by
  unfold Program.launch
  rw [foldl_work_item]
  simp [List.mem_range]

/-- Calling the kernel object, enqueuing it and reading the vector bound as
`output` amounts to one launch on the arguments of the call, whatever was bound to
the kernel object before. -/
theorem after_dispatch_enqueue_call (k : Kernel K) (input output : Fin n → K)
    (threshold : Fin 1 → K) :
    after_dispatch output (enqueue (k.call input output threshold))
      = k.program.launch k.global_work_size input output threshold := by
  funext i
  simp [after_dispatch, enqueue, Kernel.call]

theorem norm_sqr_nonneg (v : Fin n → K) : 0 ≤ norm_sqr v :=
  Finset.sum_nonneg fun i _ => mul_self_nonneg (v i)

theorem norm_sqr_pos (v : Fin n → K) (hv : v ≠ 0) : 0 < norm_sqr v := by
  obtain ⟨i, hi⟩ := Function.ne_iff.mp hv
  exact Finset.sum_pos' (fun j _ => mul_self_nonneg (v j))
    ⟨i, Finset.mem_univ i, mul_self_pos.mpr hi⟩

/-- The half-step vector of `update_beta_ista`, element by element. -/
theorem beta_to_modify_apply (self : CL_SubGradientSolver K) (X : Fin m → Fin n → K)
    (Y : Fin m → K) (Beta : Fin n → K) (L thres : K) (i : Fin n) :
    (update_beta_ista_locals self X Y Beta L thres).beta_to_modify i
      = Beta i - (1 / L) * (2 * ∑ j, X j i * ((∑ k, X j k * Beta k) - Y j)) := by
  simp [update_beta_ista_locals, prod_apply, trans_apply]

/-- The vector `update_beta_ista` returns, element by element: the kernel value of
the half-step at threshold `thres / L` where a work-item reaches the cell, and the
half-step itself elsewhere. -/
theorem update_beta_ista_apply (self : CL_SubGradientSolver K) (X : Fin m → Fin n → K)
    (Y : Fin m → K) (Beta : Fin n → K) (L thres : K) (i : Fin n) :
    update_beta_ista self X Y Beta L thres i
      = if i.val < self.soft_thres_kernel_.global_work_size then
          self.soft_thres_kernel_.program.SoftThreshold
            ((update_beta_ista_locals self X Y Beta L thres).beta_to_modify i) (thres / L)
        else (update_beta_ista_locals self X Y Beta L thres).beta_to_modify i := by
  simp only [update_beta_ista, update_beta_ista_locals, after_dispatch_enqueue_call,
    Program.launch_apply]

/-- When the launch covers the vector, every element of the returned vector is the
kernel value of the half-step. -/
theorem update_beta_ista_apply_of_covered (self : CL_SubGradientSolver K)
    (X : Fin m → Fin n → K) (Y : Fin m → K) (Beta : Fin n → K) (L thres : K)
    (hcov : n ≤ self.soft_thres_kernel_.global_work_size) (i : Fin n) :
    update_beta_ista self X Y Beta L thres i
      = soft_threshold_spec
          (Beta i - (1 / L) * (2 * ∑ j, X j i * ((∑ k, X j k * Beta k) - Y j))) (thres / L) := by
  rw [update_beta_ista_apply, if_pos (lt_of_lt_of_le i.isLt hcov), beta_to_modify_apply,
    Program.SoftThreshold_eq_spec]

/-- For a non-negative threshold the closed form has three pieces. -/
theorem soft_threshold_spec_piecewise (v t : K) (ht : 0 ≤ t) :
    soft_threshold_spec v t = if t < v then v - t else if v < -t then v + t else 0 := by
  rw [soft_threshold_spec_cases]
  by_cases h1 : t < v
  · have hv : 0 < v := lt_of_le_of_lt ht h1
    have h2 : ¬ |v| ≤ t := by rw [abs_of_pos hv]; exact not_le.mpr h1
    simp [h1, h2, hv]
  · by_cases h3 : v < -t
    · have hv : v < 0 := lt_of_lt_of_le h3 (neg_nonpos.mpr ht)
      have h2 : ¬ |v| ≤ t := by rw [abs_of_neg hv]; exact not_le.mpr (by linarith)
      simp [h1, h2, h3, hv]
    · have h2 : |v| ≤ t := abs_le.mpr ⟨by linarith, by linarith⟩
      simp [h1, h2, h3]

/-- For a non-negative threshold the closed form is a sum of a positive part and a
negative part. -/
theorem soft_threshold_spec_eq_max_add_min (v t : K) (ht : 0 ≤ t) :
    soft_threshold_spec v t = max (v - t) 0 + min (v + t) 0 := by
  rw [soft_threshold_spec_piecewise v t ht]
  by_cases h1 : t < v
  · rw [if_pos h1, max_eq_left (by linarith), min_eq_right (by linarith), add_zero]
  · by_cases h3 : v < -t
    · rw [if_neg h1, if_pos h3, max_eq_right (by linarith), min_eq_left (by linarith), zero_add]
    · rw [if_neg h1, if_neg h3, max_eq_right (by linarith), min_eq_right (by linarith), add_zero]

/-- Soft-thresholding at a non-negative threshold does not increase distances. -/
theorem soft_threshold_spec_nonexpansive (a b t : K) (ht : 0 ≤ t) :
    |soft_threshold_spec a t - soft_threshold_spec b t| ≤ |a - b| := by
  rw [soft_threshold_spec_piecewise a t ht, soft_threshold_spec_piecewise b t ht]
  have h1 := le_abs_self (a - b)
  have h2 := neg_abs_le (a - b)
  rw [abs_le]
  split_ifs <;> constructor <;> linarith

/-- Soft-thresholding at a non-negative threshold shrinks. -/
theorem soft_threshold_spec_abs_le (a t : K) (ht : 0 ≤ t) :
    |soft_threshold_spec a t| ≤ |a| := by
  rw [soft_threshold_spec_piecewise a t ht]
  have h1 := le_abs_self a
  have h2 := neg_abs_le a
  rw [abs_le]
  split_ifs <;> constructor <;> linarith

/-- Soft-thresholding at a non-negative threshold never flips the sign. -/
theorem soft_threshold_spec_mul_nonneg (a t : K) (ht : 0 ≤ t) :
    0 ≤ a * soft_threshold_spec a t := by
  rw [soft_threshold_spec_piecewise a t ht]
  split_ifs with h1 h3
  · exact mul_nonneg (by linarith) (by linarith)
  · exact mul_nonneg_of_nonpos_of_nonpos (by linarith) (by linarith)
  · simp

/-- The scalar problem behind the step: the soft-thresholded value minimises
`b ↦ (b − z)²/2 + t·|b|`. -/
theorem soft_threshold_spec_minimizes (z t b : K) (ht : 0 ≤ t) :
    (soft_threshold_spec z t - z) ^ 2 / 2 + t * |soft_threshold_spec z t|
      ≤ (b - z) ^ 2 / 2 + t * |b| := by
  rw [soft_threshold_spec_piecewise z t ht]
  have hb1 := le_abs_self b
  have hb2 := neg_abs_le b
  have hb0 := abs_nonneg b
  split_ifs with h1 h3
  · rw [abs_of_pos (by linarith : (0:K) < z - t)]
    nlinarith [sq_nonneg (b - z + t), mul_le_mul_of_nonneg_left hb1 ht]
  · rw [abs_of_neg (by linarith : z + t < 0)]
    nlinarith [sq_nonneg (b - z - t), mul_le_mul_of_nonneg_left hb2 ht]
  · rw [abs_zero]
    have hz1 : z ≤ t := not_lt.mp h1
    have hz2 : -t ≤ z := not_lt.mp h3
    nlinarith [sq_nonneg b,
      mul_nonneg (by linarith : (0:K) ≤ t - z) (by linarith : (0:K) ≤ |b| + b),
      mul_nonneg (by linarith : (0:K) ≤ z + t) (by linarith : (0:K) ≤ |b| - b)]

/-- The majorizer as the objective at the reference point plus one sum over the
coordinates. -/
theorem f_beta_tilda_eq_sum (self : CL_SubGradientSolver K) (X : Fin m → Fin n → K)
    (Y : Fin m → K) (b Beta : Fin n → K) (L : K) :
    f_beta_tilda self X Y b Beta L
      = norm_sqr (prod X Beta - Y)
        + ∑ i, ((2 * ∑ j, X j i * ((∑ k, X j k * Beta k) - Y j)) * (b i - Beta i)
            + L / 2 * ((b i - Beta i) * (b i - Beta i))) := by
  simp only [f_beta_tilda, inner_prod, norm_sqr, Finset.sum_add_distrib, Finset.mul_sum,
    Pi.smul_apply, Pi.sub_apply, prod_apply, trans_apply, smul_eq_mul]
  ring

/-- One coordinate of the penalised majorizer is minimal at the soft-thresholded
half-step. -/
theorem coordinate_minimizes (g beta b L thres : K) (hL : 0 < L) (hthres : 0 ≤ thres) :
    g * (soft_threshold_spec (beta - (1 / L) * g) (thres / L) - beta)
        + L / 2 * ((soft_threshold_spec (beta - (1 / L) * g) (thres / L) - beta)
            * (soft_threshold_spec (beta - (1 / L) * g) (thres / L) - beta))
        + thres * |soft_threshold_spec (beta - (1 / L) * g) (thres / L)|
      ≤ g * (b - beta) + L / 2 * ((b - beta) * (b - beta)) + thres * |b| := by
  have ht : 0 ≤ thres / L := div_nonneg hthres hL.le
  have h := mul_le_mul_of_nonneg_left
    (soft_threshold_spec_minimizes (beta - (1 / L) * g) (thres / L) b ht) hL.le
  generalize soft_threshold_spec (beta - (1 / L) * g) (thres / L) = s at h ⊢
  have hg : L * ((1 / L) * g) = g := by field_simp
  have hth : L * (thres / L) = thres := by field_simp
  have e1 : L * ((s - (beta - 1 / L * g)) ^ 2 / 2 + thres / L * |s|)
      = L / 2 * ((s - beta) * (s - beta)) + (L * (1 / L * g)) * (s - beta)
        + L * (1 / L * g) * (1 / L * g) / 2 + (L * (thres / L)) * |s| := by ring
  have e2 : L * ((b - (beta - 1 / L * g)) ^ 2 / 2 + thres / L * |b|)
      = L / 2 * ((b - beta) * (b - beta)) + (L * (1 / L * g)) * (b - beta)
        + L * (1 / L * g) * (1 / L * g) / 2 + (L * (thres / L)) * |b| := by ring
  rw [e1, e2, hg, hth] at h
  linarith

/-- When the launch covers the vector, the step minimises the penalised majorizer
built at `Beta`. -/
theorem update_beta_ista_minimizes_of_covered (self : CL_SubGradientSolver K)
    (X : Fin m → Fin n → K) (Y : Fin m → K) (Beta b : Fin n → K) (L thres : K)
    (hcov : n ≤ self.soft_thres_kernel_.global_work_size) (hL : 0 < L) (hthres : 0 ≤ thres) :
    f_beta_tilda self X Y (update_beta_ista self X Y Beta L thres) Beta L
        + thres * norm_1 (update_beta_ista self X Y Beta L thres)
      ≤ f_beta_tilda self X Y b Beta L + thres * norm_1 b := by
  rw [f_beta_tilda_eq_sum, f_beta_tilda_eq_sum, norm_1, norm_1, Finset.mul_sum, Finset.mul_sum,
    add_assoc, add_assoc, ← Finset.sum_add_distrib, ← Finset.sum_add_distrib]
  refine add_le_add_left (Finset.sum_le_sum fun i _ => ?_) _
  rw [update_beta_ista_apply_of_covered self X Y Beta L thres hcov]
  exact coordinate_minimizes _ _ _ _ _ hL hthres

/-- When the launch covers the vector and the majorization condition holds at the
new point, the step does not increase the penalised objective. -/
theorem update_beta_ista_descent_of_covered (self : CL_SubGradientSolver K)
    (X : Fin m → Fin n → K) (Y : Fin m → K) (Beta : Fin n → K) (L thres : K)
    (hcov : n ≤ self.soft_thres_kernel_.global_work_size) (hL : 0 < L) (hthres : 0 ≤ thres)
    (hmaj : f_beta self X Y (update_beta_ista self X Y Beta L thres)
      ≤ f_beta_tilda self X Y (update_beta_ista self X Y Beta L thres) Beta L) :
    f_beta self X Y (update_beta_ista self X Y Beta L thres)
        + thres * norm_1 (update_beta_ista self X Y Beta L thres)
      ≤ f_beta self X Y Beta + thres * norm_1 Beta := by
  have hmin := update_beta_ista_minimizes_of_covered self X Y Beta Beta L thres hcov hL hthres
  have htight : f_beta_tilda self X Y Beta Beta L = f_beta self X Y Beta := by
    simp [f_beta_tilda, f_beta, norm_sqr, inner_prod]
  rw [htight] at hmin
  linarith

/-- The objective at `Beta` expanded around `Beta_prime`. -/
theorem f_beta_tilda_sub_f_beta (self : CL_SubGradientSolver K) (X : Fin m → Fin n → K)
    (Y : Fin m → K) (Beta Beta_prime : Fin n → K) (L : K) :
    f_beta_tilda self X Y Beta Beta_prime L - f_beta self X Y Beta
      = L / 2 * norm_sqr (Beta - Beta_prime) - norm_sqr (prod X (Beta - Beta_prime)) := by
  have hswap : inner_prod ((2 : K) • prod (trans X) (prod X Beta_prime - Y)) (Beta - Beta_prime)
      = 2 * ∑ j, (prod X Beta_prime - Y) j * prod X (Beta - Beta_prime) j := by
    simp only [inner_prod, Pi.smul_apply, smul_eq_mul, prod_apply, trans_apply, Finset.mul_sum,
      Finset.sum_mul]
    rw [Finset.sum_comm]
    refine Finset.sum_congr rfl fun j _ => Finset.sum_congr rfl fun i _ => ?_
    ring
  have hres : prod X Beta - Y = (prod X Beta_prime - Y) + prod X (Beta - Beta_prime) := by
    funext j
    simp only [Pi.add_apply, Pi.sub_apply, prod_apply, mul_sub, Finset.sum_sub_distrib]
    ring
  have hsq : norm_sqr ((prod X Beta_prime - Y) + prod X (Beta - Beta_prime))
      = norm_sqr (prod X Beta_prime - Y)
        + 2 * ∑ j, (prod X Beta_prime - Y) j * prod X (Beta - Beta_prime) j
        + norm_sqr (prod X (Beta - Beta_prime)) := by
    simp only [norm_sqr, Pi.add_apply, Finset.mul_sum, ← Finset.sum_add_distrib]
    refine Finset.sum_congr rfl fun j _ => ?_
    ring
  simp only [f_beta_tilda, f_beta]
  rw [hswap, hres, hsq]
  ring

/-- A scalar is left in place by "shift by `u`, then soft-threshold at `t`" exactly
when `u` is the matching subgradient of `t·|·|`. -/
theorem soft_threshold_spec_fixed_iff (beta u t : K) (ht : 0 ≤ t) :
    soft_threshold_spec (beta - u) t = beta ↔
      (beta ≠ 0 → u = -t * (SignType.sign beta : K)) ∧ (beta = 0 → |u| ≤ t) := by
  rw [soft_threshold_spec_piecewise _ _ ht]
  rcases lt_trichotomy beta 0 with hb | hb | hb
  · have hs : (SignType.sign beta : K) = -1 := by simp [hb]
    rw [hs]
    constructor
    · intro h
      refine ⟨fun _ => ?_, fun h0 => absurd h0 hb.ne⟩
      split_ifs at h <;> linarith
    · rintro ⟨h, -⟩
      have hu := h hb.ne
      split_ifs <;> linarith
  · subst hb
    constructor
    · intro h
      refine ⟨fun h0 => absurd rfl h0, fun _ => ?_⟩
      rw [abs_le]
      split_ifs at h <;> constructor <;> linarith
    · rintro ⟨-, h⟩
      have hu := abs_le.mp (h rfl)
      split_ifs <;> linarith [hu.1, hu.2]
  · have hs : (SignType.sign beta : K) = 1 := by simp [hb]
    rw [hs]
    constructor
    · intro h
      refine ⟨fun _ => ?_, fun h0 => absurd h0 hb.ne.symm⟩
      split_ifs at h <;> linarith
    · rintro ⟨h, -⟩
      have hu := h hb.ne.symm
      split_ifs <;> linarith

/-- The fixed-point condition of one coordinate of the step, in terms of the
gradient entry `g` and the regularization weight `thres`. -/
theorem coordinate_fixed_iff (g beta L thres : K) (hL : 0 < L) (hthres : 0 ≤ thres) :
    soft_threshold_spec (beta - (1 / L) * g) (thres / L) = beta ↔
      (beta ≠ 0 → g = -thres * (SignType.sign beta : K)) ∧ (beta = 0 → |g| ≤ thres) := by
  have hL0 : L ≠ 0 := hL.ne.symm
  rw [soft_threshold_spec_fixed_iff _ _ _ (div_nonneg hthres hL.le)]
  have e1 : 1 / L * g = g / L := by ring
  have e2 : -(thres / L) * (SignType.sign beta : K)
      = (-thres * (SignType.sign beta : K)) / L := by ring
  rw [e1, e2, div_left_inj' hL0, abs_div, abs_of_pos hL, div_le_div_iff_of_pos_right hL]

/-- When the launch covers the vector, the fixed points of the step are the points
that satisfy the optimality condition of `‖X·Beta − Y‖² + thres·‖Beta‖₁`. -/
theorem update_beta_ista_fixed_iff_of_covered (self : CL_SubGradientSolver K)
    (X : Fin m → Fin n → K) (Y : Fin m → K) (Beta : Fin n → K) (L thres : K)
    (hcov : n ≤ self.soft_thres_kernel_.global_work_size) (hL : 0 < L) (hthres : 0 ≤ thres) :
    update_beta_ista self X Y Beta L thres = Beta ↔
      ∀ i, (Beta i ≠ 0 →
              2 * ∑ j, X j i * ((∑ k, X j k * Beta k) - Y j)
                = -thres * (SignType.sign (Beta i) : K))
        ∧ (Beta i = 0 →
              |2 * ∑ j, X j i * ((∑ k, X j k * Beta k) - Y j)| ≤ thres) := by
  rw [funext_iff]
  refine forall_congr' fun i => ?_
  rw [update_beta_ista_apply_of_covered self X Y Beta L thres hcov]
  exact coordinate_fixed_iff _ _ _ _ hL hthres

/-- When the launch covers the vector, the step is the textbook ISTA step with
step size `2/L` and weight `thres/2`. -/
theorem update_beta_ista_eq_textbook_of_covered (self : CL_SubGradientSolver K)
    (X : Fin m → Fin n → K) (Y : Fin m → K) (Beta : Fin n → K) (L thres : K)
    (hcov : n ≤ self.soft_thres_kernel_.global_work_size) (hL : 0 < L) :
    update_beta_ista self X Y Beta L thres
      = textbook_ista_step X Y Beta (2 / L) (thres / 2) := by
  have hL0 : L ≠ 0 := hL.ne.symm
  funext i
  rw [update_beta_ista_apply_of_covered self X Y Beta L thres hcov, textbook_ista_step]
  congr 1
  · field_simp
  · field_simp
    ring

/-! ## The proximal-gradient step -/

/-- C1, evaluated where the launch stops short of the vector.  With a kernel object
of global work size `1` and the inputs `X = [[1,0],[0,1]]`, `Y = [3,5]`,
`Beta = [0,0]`, `L = 1`, `thres = 1`, entry `1` of the vector `update_beta_ista`
returns is the half-step `10`, while `SoftThreshold(z_1, thres/L)` is `9`.  And for
every global work size `g` there is such an input: with `g + 1` elements, `X` the
identity, `Y = [3,…,3]`, `Beta = 0`, `L = 1`, `thres = 1`, the last entry returned is
the half-step `6`, while `SoftThreshold(z, thres/L)` is `5` there. -/
theorem update_beta_ista_entry_unreached (p : Program) (L_0 : K) :
    update_beta_ista (⟨⟨p, 1, none⟩, L_0⟩ : CL_SubGradientSolver K)
        ![![1, 0], ![0, 1]] ![3, 5] ![0, 0] 1 1 1 = 10
      ∧ p.SoftThreshold
          ((![0, 0] : Fin 2 → K) 1 - (1 / 1) * (2 * ∑ j : Fin 2,
            (![![1, 0], ![0, 1]] : Fin 2 → Fin 2 → K) j 1
              * ((∑ k, (![![1, 0], ![0, 1]] : Fin 2 → Fin 2 → K) j k
                  * (![0, 0] : Fin 2 → K) k) - (![3, 5] : Fin 2 → K) j)))
          (1 / 1) = 9
      ∧ ∀ g : ℕ,
          update_beta_ista (⟨⟨p, g, none⟩, L_0⟩ : CL_SubGradientSolver K)
              (fun j k : Fin (g + 1) => if j = k then 1 else 0) (fun _ => 3) (fun _ => 0)
              1 1 (Fin.last g) = 6
            ∧ p.SoftThreshold
                ((0 : K) - (1 / 1) * (2 * ∑ j : Fin (g + 1),
                  (if j = Fin.last g then (1 : K) else 0)
                    * ((∑ k : Fin (g + 1), (if j = k then (1 : K) else 0) * 0) - 3)))
                (1 / 1) = 5 := by
  refine ⟨?_, ?_, fun g => ⟨?_, ?_⟩⟩
  · rw [update_beta_ista_apply, beta_to_modify_apply]
    simp [Fin.sum_univ_two]
    norm_num
  · simp [Program.SoftThreshold_eq, Fin.sum_univ_two]
    norm_num
  · rw [update_beta_ista_apply, beta_to_modify_apply]
    simp [Finset.sum_ite_eq, Finset.sum_ite_eq']
    norm_num
  · simp [Program.SoftThreshold_eq, Finset.sum_ite_eq, Finset.sum_ite_eq']
    norm_num

/-- C2: for every threshold `t = threshold[0]` and element value `v = input[i]`, the
work-item of the `SoftThreshold` kernel with global id `i`, of either program,
stores `sign(v)·max(|v| − t, 0)` in `output[i]`: that is `0` when `|v| ≤ t` and
`v − sign(v)·t` otherwise.  The value stored is a function of `input[i]` and
`threshold[0]` alone, and the work-item writes no other cell of `output`. -/
theorem SoftThreshold_output (p : Program) (input output : Fin n → K)
    (threshold : Fin 1 → K) (i : Fin n) :
    p.work_item input output threshold i i
        = (SignType.sign (input i) : K) * max (|input i| - threshold 0) 0
      ∧ p.work_item input output threshold i i
        = (if |input i| ≤ threshold 0 then 0
            else input i - (SignType.sign (input i) : K) * threshold 0)
      ∧ (∀ (input' output' : Fin n → K) (threshold' : Fin 1 → K),
          p.work_item (Function.update input' i (input i)) output'
              (Function.update threshold' 0 (threshold 0)) i i
            = p.work_item input output threshold i i)
      ∧ ∀ j, p.work_item input output threshold i j
          = if j = i then (SignType.sign (input i) : K) * max (|input i| - threshold 0) 0
            else output j := by
  have h : p.work_item input output threshold i i
      = (SignType.sign (input i) : K) * max (|input i| - threshold 0) 0 := by
    rw [Program.work_item, Function.update_same, Program.SoftThreshold_eq_spec,
      soft_threshold_spec]
  refine ⟨h, ?_, ?_, ?_⟩
  · rw [Program.work_item, Function.update_same, Program.SoftThreshold_eq_spec,
      soft_threshold_spec_cases]
  · intro input' output' threshold'
    simp [Program.work_item]
  · intro j
    by_cases hj : j = i
    · subst hj
      rw [if_pos rfl, h]
    · rw [if_neg hj, Program.work_item, Function.update_noteq hj]

/-! ## The objective and its majorizer -/

/-- C3: `f_beta( X, Y, Beta )` is the squared Euclidean norm of the residual
`X·Beta − Y`: the sum over the rows `j` of `((X·Beta)_j − Y_j)²`. -/
theorem f_beta_eq_sum_sq (self : CL_SubGradientSolver K) (X : Fin m → Fin n → K)
    (Y : Fin m → K) (Beta : Fin n → K) :
    f_beta self X Y Beta = ∑ j, ((∑ k, X j k * Beta k) - Y j) ^ 2 := by
  simp [f_beta, norm_sqr, prod_apply, sq]

/-- C4: `f_beta_tilda( X, Y, Beta, Beta_prime, L )` is
`f(Beta_prime) + <∇f(Beta_prime), Beta − Beta_prime> + (L/2)·‖Beta − Beta_prime‖²`
with `f = f_beta` and `∇f(Beta_prime) = 2·Xᵗ·(X·Beta_prime − Y)`. -/
theorem f_beta_tilda_eq_surrogate (self : CL_SubGradientSolver K) (X : Fin m → Fin n → K)
    (Y : Fin m → K) (Beta Beta_prime : Fin n → K) (L : K) :
    f_beta_tilda self X Y Beta Beta_prime L
      = f_beta self X Y Beta_prime
        + ∑ i, (2 * ∑ j, X j i * ((∑ k, X j k * Beta_prime k) - Y j))
            * (Beta i - Beta_prime i)
        + L / 2 * ∑ i, (Beta i - Beta_prime i) ^ 2 := by
  simp [f_beta_tilda, f_beta, norm_sqr, inner_prod, prod_apply, trans_apply, sq]

/-- C5: tightness at the expansion point: `f_beta_tilda( X, Y, Beta, Beta, L )`
equals `f_beta( X, Y, Beta )` for every `L`, of any sign. -/
theorem f_beta_tilda_self (self : CL_SubGradientSolver K) (X : Fin m → Fin n → K)
    (Y : Fin m → K) (Beta : Fin n → K) (L : K) :
    f_beta_tilda self X Y Beta Beta L = f_beta self X Y Beta := by
  simp [f_beta_tilda, f_beta, norm_sqr, inner_prod]

/-- C7: majorization monotonicity: for `Beta ≠ Beta_prime` the map
`L ↦ f_beta_tilda( X, Y, Beta, Beta_prime, L )` is strictly increasing. -/
theorem f_beta_tilda_strictMono (self : CL_SubGradientSolver K) (X : Fin m → Fin n → K)
    (Y : Fin m → K) (Beta Beta_prime : Fin n → K) (hne : Beta ≠ Beta_prime)
    (L1 L2 : K) (hL : L1 < L2) :
    f_beta_tilda self X Y Beta Beta_prime L1 < f_beta_tilda self X Y Beta Beta_prime L2 := by
  have hpos : 0 < norm_sqr (Beta - Beta_prime) :=
    norm_sqr_pos _ (sub_ne_zero.mpr hne)
  have hhalf : L1 / 2 < L2 / 2 := div_lt_div_of_pos_right hL two_pos
  simp only [f_beta_tilda]
  exact add_lt_add_left (mul_lt_mul_of_pos_right hhalf hpos) _

theorem f_beta_tilda_strictMono_witness :
    (![1, -1] : Fin 2 → ℚ) ≠ ![1, 0] ∧ (-1 : ℚ) < 3 ∧
      f_beta_tilda (⟨⟨.softthreshold_kernel, 128, none⟩, 1 / 10⟩ : CL_SubGradientSolver ℚ)
          ![![1, 2], ![0, 1], ![3, 1]] ![3, 5, 1] ![1, -1] ![1, 0] (-1)
        < f_beta_tilda (⟨⟨.softthreshold_kernel, 128, none⟩, 1 / 10⟩ : CL_SubGradientSolver ℚ)
          ![![1, 2], ![0, 1], ![3, 1]] ![3, 5, 1] ![1, -1] ![1, 0] 3 :=
  have hne : (![1, -1] : Fin 2 → ℚ) ≠ ![1, 0] := by
    intro h
    have h1 := congrFun h 1
    norm_num at h1
  ⟨hne, by norm_num, f_beta_tilda_strictMono _ _ _ _ _ hne (-1) 3 (by norm_num)⟩

/-- C8: `f_beta( X, Y, Beta ) ≥ 0` for all `X`, `Y`, `Beta`. -/
theorem f_beta_nonneg (self : CL_SubGradientSolver K) (X : Fin m → Fin n → K)
    (Y : Fin m → K) (Beta : Fin n → K) :
    f_beta self X Y Beta ≥ 0 :=
  norm_sqr_nonneg _

/-- C9, evaluated where the launch stops short of the vector.  With a kernel object
of global work size `1` and the inputs `X = [[1,0],[0,1]]`, `Y = [3,5]`,
`Beta = [0,0]`, `L = 1`, `thres = 1`, `update_beta_ista` returns `[5,10]`, while
the textbook ISTA step with `η = 2/L` and `λ = thres/2` is `[5,9]`. -/
theorem update_beta_ista_ne_textbook (p : Program) (L_0 : K) :
    update_beta_ista (⟨⟨p, 1, none⟩, L_0⟩ : CL_SubGradientSolver K)
        ![![1, 0], ![0, 1]] ![3, 5] ![0, 0] 1 1 = ![5, 10]
      ∧ textbook_ista_step (![![1, 0], ![0, 1]] : Fin 2 → Fin 2 → K) ![3, 5] ![0, 0]
          (2 / 1) (1 / 2) = ![5, 9] := by
  constructor
  · funext i
    fin_cases i <;>
      simp [update_beta_ista_apply, update_beta_ista_locals, Program.SoftThreshold_eq,
        prod_apply, trans_apply, Fin.sum_univ_two, Matrix.vecHead, Matrix.vecTail] <;>
      norm_num
  · funext i
    fin_cases i <;>
      simp [textbook_ista_step, ← Program.SoftThreshold_eq_spec Program.softthreshold_kernel,
        Program.SoftThreshold_eq, Fin.sum_univ_two] <;>
      norm_num

/-- C10, evaluated for every global work size `g` of the kernel object.  With
`X = [[1,0],[0,1]]`, `Y = [3,5]`, `Beta = [0,0]`, `L = 1` and `thres = 1`,
`update_beta_ista` computes the residual `[-3,-5]`, the gradient `[-6,-10]` and the
half-step `[6,10]`; the vector it returns is `[5,9]` when `g ≥ 2`, `[5,10]` when
`g = 1` and `[6,10]` when `g = 0`. -/
theorem update_beta_ista_scenario_1 (self : CL_SubGradientSolver K) :
    (update_beta_ista_locals self ![![1, 0], ![0, 1]] ![3, 5] ![0, 0] 1 1).f_beta
        = ![-3, -5]
      ∧ (update_beta_ista_locals self ![![1, 0], ![0, 1]] ![3, 5] ![0, 0] 1 1).f_grad
        = ![-6, -10]
      ∧ (update_beta_ista_locals self ![![1, 0], ![0, 1]] ![3, 5] ![0, 0] 1 1).beta_to_modify
        = ![6, 10]
      ∧ update_beta_ista self ![![1, 0], ![0, 1]] ![3, 5] ![0, 0] 1 1
        = ![if 0 < self.soft_thres_kernel_.global_work_size then 5 else 6,
            if 1 < self.soft_thres_kernel_.global_work_size then 9 else 10] := by
  refine ⟨?_, ?_, ?_, ?_⟩
  · funext i
    fin_cases i <;>
      simp [update_beta_ista_locals, prod_apply, Fin.sum_univ_two, Matrix.vecHead,
        Matrix.vecTail]
  · funext i
    fin_cases i <;>
      simp [update_beta_ista_locals, prod_apply, trans_apply, Fin.sum_univ_two,
        Matrix.vecHead, Matrix.vecTail] <;> norm_num
  · funext i
    fin_cases i <;>
      simp [update_beta_ista_locals, prod_apply, trans_apply, Fin.sum_univ_two,
        Matrix.vecHead, Matrix.vecTail] <;> norm_num
  · funext i
    fin_cases i <;>
      simp [update_beta_ista_apply, update_beta_ista_locals, Program.SoftThreshold_eq,
        prod_apply, trans_apply, Fin.sum_univ_two, Matrix.vecHead, Matrix.vecTail] <;>
      norm_num

/-- C11, evaluated for every global work size `g` of the kernel object.  With
`X = [[1,0],[0,1]]`, `Y = [3,5]`, `Beta = [5,9]`, `L = 1` and `thres = 1`,
`update_beta_ista` computes the residual `[2,4]`, the gradient `[4,8]`, the
half-step `[1,1]` and the kernel threshold `1`; the vector it returns is `[0,0]`
when `g ≥ 2` (an element exactly at the threshold is mapped to `0`), `[0,1]` when
`g = 1` and `[1,1]` when `g = 0`. -/
theorem update_beta_ista_scenario_2 (self : CL_SubGradientSolver K) :
    (update_beta_ista_locals self ![![1, 0], ![0, 1]] ![3, 5] ![5, 9] 1 1).f_beta
        = ![2, 4]
      ∧ (update_beta_ista_locals self ![![1, 0], ![0, 1]] ![3, 5] ![5, 9] 1 1).f_grad
        = ![4, 8]
      ∧ (update_beta_ista_locals self ![![1, 0], ![0, 1]] ![3, 5] ![5, 9] 1 1).beta_to_modify
        = ![1, 1]
      ∧ (update_beta_ista_locals self ![![1, 0], ![0, 1]] ![3, 5] ![5, 9] 1 1).thres_ 0 = 1
      ∧ update_beta_ista self ![![1, 0], ![0, 1]] ![3, 5] ![5, 9] 1 1
        = ![if 0 < self.soft_thres_kernel_.global_work_size then 0 else 1,
            if 1 < self.soft_thres_kernel_.global_work_size then 0 else 1] := by
  refine ⟨?_, ?_, ?_, ?_, ?_⟩
  · funext i
    fin_cases i <;>
      simp [update_beta_ista_locals, prod_apply, Fin.sum_univ_two, Matrix.vecHead,
        Matrix.vecTail] <;> norm_num
  · funext i
    fin_cases i <;>
      simp [update_beta_ista_locals, prod_apply, trans_apply, Fin.sum_univ_two,
        Matrix.vecHead, Matrix.vecTail] <;> norm_num
  · funext i
    fin_cases i <;>
      simp [update_beta_ista_locals, prod_apply, trans_apply, Fin.sum_univ_two,
        Matrix.vecHead, Matrix.vecTail] <;> norm_num
  · simp [update_beta_ista_locals]
  · funext i
    fin_cases i <;>
      simp [update_beta_ista_apply, update_beta_ista_locals, Program.SoftThreshold_eq,
        prod_apply, trans_apply, Fin.sum_univ_two, Matrix.vecHead, Matrix.vecTail] <;>
      norm_num

/-- C12, evaluated on the constructor: for `long double`, which passes the
floating-point type constraint, neither branch of the constructor selects a
program and no solver is constructed; for `float` and `double` the selected
program has the matching element type. -/
theorem construct_long_double {α : Type*} (L : α) (global_work_size : ℕ) :
    select_program FloatingPoint.long_double = none
      ∧ CL_SubGradientSolver.construct FloatingPoint.long_double L global_work_size = none
      ∧ (select_program FloatingPoint.float).map Program.element_type
          = some FloatingPoint.float
      ∧ (select_program FloatingPoint.double).map Program.element_type
          = some FloatingPoint.double := by
  refine ⟨rfl, rfl, rfl, rfl⟩

/-- C13: for every `t ≥ 0` the map `v ↦ SoftThreshold(v, t)` is continuous over the
reals; at `v = t` and at `v = −t` the value is `0`, and there the two branches `0`
and `v − sign(v)·t` agree. -/
theorem SoftThreshold_continuous (p : Program) (t : ℝ) (ht : 0 ≤ t) :
    Continuous (fun v : ℝ => p.SoftThreshold v t)
      ∧ p.SoftThreshold t t = 0
      ∧ p.SoftThreshold (-t) t = 0
      ∧ t - (SignType.sign t : ℝ) * t = 0
      ∧ -t - (SignType.sign (-t) : ℝ) * t = 0 := by
  have hfun : (fun v : ℝ => p.SoftThreshold v t)
      = fun v : ℝ => max (v - t) 0 + min (v + t) 0 := by
    funext v
    rw [Program.SoftThreshold_eq_spec, soft_threshold_spec_eq_max_add_min v t ht]
  have h1 : p.SoftThreshold t t = 0 := by
    rw [Program.SoftThreshold_eq_spec, soft_threshold_spec_cases, if_pos (abs_of_nonneg ht).le]
  have h2 : p.SoftThreshold (-t) t = 0 := by
    rw [Program.SoftThreshold_eq_spec, soft_threshold_spec_cases,
      if_pos (by rw [abs_neg, abs_of_nonneg ht])]
  refine ⟨?_, h1, h2, ?_, ?_⟩
  · rw [hfun]
    exact ((continuous_id.sub continuous_const).max continuous_const).add
      ((continuous_id.add continuous_const).min continuous_const)
  · rcases ht.eq_or_lt with h | h
    · simp [← h]
    · simp [h]
  · rcases ht.eq_or_lt with h | h
    · simp [← h]
    · simp [h]

theorem SoftThreshold_continuous_witness :
    (0 : ℝ) ≤ 1 ∧
      (Continuous (fun v : ℝ => Program.softthreshold_kernel.SoftThreshold v 1)
        ∧ Program.softthreshold_kernel.SoftThreshold (1 : ℝ) 1 = 0
        ∧ Program.softthreshold_kernel.SoftThreshold (-1 : ℝ) 1 = 0
        ∧ (1 : ℝ) - (SignType.sign (1 : ℝ) : ℝ) * 1 = 0
        ∧ -(1 : ℝ) - (SignType.sign (-1 : ℝ) : ℝ) * 1 = 0) :=
  ⟨zero_le_one, SoftThreshold_continuous Program.softthreshold_kernel 1 zero_le_one⟩

/-- C15, evaluated where the launch stops short of the vector.  With a kernel object
of global work size `1` and the inputs `X = [[1,0],[0,1]]`, `Y = [3,5]`,
`Beta = [0,0]`, `L = 1`, `thres = 1`, the step returns `B* = [5,10]`, and the
penalised surrogate is smaller at `b = [5,9]` than at `B*`:
`f_beta_tilda( X, Y, b, Beta, L ) + thres·‖b‖₁
  < f_beta_tilda( X, Y, B*, Beta, L ) + thres·‖B*‖₁`. -/
theorem update_beta_ista_not_minimizer (p : Program) (L_0 : K) :
    (0 : K) < 1 ∧ (0 : K) ≤ 1
      ∧ update_beta_ista (⟨⟨p, 1, none⟩, L_0⟩ : CL_SubGradientSolver K)
          ![![1, 0], ![0, 1]] ![3, 5] ![0, 0] 1 1 = ![5, 10]
      ∧ f_beta_tilda (⟨⟨p, 1, none⟩, L_0⟩ : CL_SubGradientSolver K)
            ![![1, 0], ![0, 1]] ![3, 5] ![5, 9] ![0, 0] 1
          + 1 * norm_1 (![5, 9] : Fin 2 → K)
        < f_beta_tilda (⟨⟨p, 1, none⟩, L_0⟩ : CL_SubGradientSolver K)
            ![![1, 0], ![0, 1]] ![3, 5]
            (update_beta_ista (⟨⟨p, 1, none⟩, L_0⟩ : CL_SubGradientSolver K)
              ![![1, 0], ![0, 1]] ![3, 5] ![0, 0] 1 1) ![0, 0] 1
          + 1 * norm_1 (update_beta_ista (⟨⟨p, 1, none⟩, L_0⟩ : CL_SubGradientSolver K)
              ![![1, 0], ![0, 1]] ![3, 5] ![0, 0] 1 1) := by
  have hB : update_beta_ista (⟨⟨p, 1, none⟩, L_0⟩ : CL_SubGradientSolver K)
      ![![1, 0], ![0, 1]] ![3, 5] ![0, 0] 1 1 = ![5, 10] := by
    funext i
    fin_cases i <;>
      simp [update_beta_ista_apply, update_beta_ista_locals, Program.SoftThreshold_eq,
        prod_apply, trans_apply, Fin.sum_univ_two, Matrix.vecHead, Matrix.vecTail] <;>
      norm_num
  refine ⟨zero_lt_one, zero_le_one, hB, ?_⟩
  rw [hB]
  simp [f_beta_tilda, norm_sqr, inner_prod, norm_1, prod_apply, trans_apply,
    Fin.sum_univ_two, Matrix.vecHead, Matrix.vecTail]
  norm_num

/-- C16: exact majorization gap: `f_beta_tilda( X, Y, Beta, Beta_prime, L )` minus
`f_beta( X, Y, Beta )` is `(L/2)·‖Beta − Beta_prime‖² − ‖X·(Beta − Beta_prime)‖²`
for every `L`; so `f_beta ≤ f_beta_tilda` holds exactly when
`‖X·(Beta − Beta_prime)‖² ≤ (L/2)·‖Beta − Beta_prime‖²`, and it fails for some
inputs with `L > 0` (here `X = [[1]]`, `Y = [0]`, `Beta = [1]`, `Beta_prime = [0]`,
`L = 1`). -/
theorem f_beta_tilda_gap (self : CL_SubGradientSolver K) (X : Fin m → Fin n → K)
    (Y : Fin m → K) (Beta Beta_prime : Fin n → K) (L : K) :
    f_beta_tilda self X Y Beta Beta_prime L - f_beta self X Y Beta
        = L / 2 * ∑ i, (Beta i - Beta_prime i) ^ 2
          - ∑ j, (∑ k, X j k * (Beta k - Beta_prime k)) ^ 2
      ∧ (f_beta self X Y Beta ≤ f_beta_tilda self X Y Beta Beta_prime L
          ↔ ∑ j, (∑ k, X j k * (Beta k - Beta_prime k)) ^ 2
              ≤ L / 2 * ∑ i, (Beta i - Beta_prime i) ^ 2)
      ∧ (0 : K) < 1
      ∧ f_beta_tilda self (![![1]] : Fin 1 → Fin 1 → K) ![0] ![1] ![0] 1
          < f_beta self (![![1]] : Fin 1 → Fin 1 → K) ![0] ![1] := by
  have hgap : f_beta_tilda self X Y Beta Beta_prime L - f_beta self X Y Beta
      = L / 2 * ∑ i, (Beta i - Beta_prime i) ^ 2
        - ∑ j, (∑ k, X j k * (Beta k - Beta_prime k)) ^ 2 := by
    rw [f_beta_tilda_sub_f_beta]
    simp [norm_sqr, prod_apply, sq]
  refine ⟨hgap, ?_, zero_lt_one, ?_⟩
  · rw [← sub_nonneg, hgap, sub_nonneg]
  · simp [f_beta_tilda, f_beta, norm_sqr, inner_prod, prod_apply, trans_apply,
      Matrix.vecHead]
    norm_num

/-- C17, evaluated where the launch stops short of the vector.  With a kernel object
of global work size `1` and the inputs `X = [[1,0],[0,1]]`, `Y = [0,1]`,
`Beta = [0,0]`, `L = 2`, `thres = 3`, the step returns `B* = [0,1]`; the
majorization condition `f_beta( X, Y, B* ) ≤ f_beta_tilda( X, Y, B*, Beta, L )`
holds, and yet the penalised objective goes up:
`f_beta( X, Y, Beta ) + thres·‖Beta‖₁ < f_beta( X, Y, B* ) + thres·‖B*‖₁`. -/
theorem update_beta_ista_ascent (p : Program) (L_0 : K) :
    (0 : K) < 2 ∧ (0 : K) ≤ 3
      ∧ update_beta_ista (⟨⟨p, 1, none⟩, L_0⟩ : CL_SubGradientSolver K)
          ![![1, 0], ![0, 1]] ![0, 1] ![0, 0] 2 3 = ![0, 1]
      ∧ f_beta (⟨⟨p, 1, none⟩, L_0⟩ : CL_SubGradientSolver K) ![![1, 0], ![0, 1]] ![0, 1]
            (update_beta_ista (⟨⟨p, 1, none⟩, L_0⟩ : CL_SubGradientSolver K)
              ![![1, 0], ![0, 1]] ![0, 1] ![0, 0] 2 3)
          ≤ f_beta_tilda (⟨⟨p, 1, none⟩, L_0⟩ : CL_SubGradientSolver K)
            ![![1, 0], ![0, 1]] ![0, 1]
            (update_beta_ista (⟨⟨p, 1, none⟩, L_0⟩ : CL_SubGradientSolver K)
              ![![1, 0], ![0, 1]] ![0, 1] ![0, 0] 2 3) ![0, 0] 2
      ∧ f_beta (⟨⟨p, 1, none⟩, L_0⟩ : CL_SubGradientSolver K) ![![1, 0], ![0, 1]] ![0, 1]
            ![0, 0]
          + 3 * norm_1 (![0, 0] : Fin 2 → K)
        < f_beta (⟨⟨p, 1, none⟩, L_0⟩ : CL_SubGradientSolver K) ![![1, 0], ![0, 1]] ![0, 1]
            (update_beta_ista (⟨⟨p, 1, none⟩, L_0⟩ : CL_SubGradientSolver K)
              ![![1, 0], ![0, 1]] ![0, 1] ![0, 0] 2 3)
          + 3 * norm_1 (update_beta_ista (⟨⟨p, 1, none⟩, L_0⟩ : CL_SubGradientSolver K)
              ![![1, 0], ![0, 1]] ![0, 1] ![0, 0] 2 3) := by
  have hB : update_beta_ista (⟨⟨p, 1, none⟩, L_0⟩ : CL_SubGradientSolver K)
      ![![1, 0], ![0, 1]] ![0, 1] ![0, 0] 2 3 = ![0, 1] := by
    funext i
    fin_cases i <;>
      simp [update_beta_ista_apply, update_beta_ista_locals, Program.SoftThreshold_eq,
        prod_apply, trans_apply, Fin.sum_univ_two, Matrix.vecHead, Matrix.vecTail]
  refine ⟨two_pos, by norm_num, hB, ?_, ?_⟩
  · rw [hB]
    simp [f_beta, f_beta_tilda, norm_sqr, inner_prod, prod_apply, trans_apply,
      Fin.sum_univ_two, Matrix.vecHead, Matrix.vecTail]
    norm_num
  · rw [hB]
    simp [f_beta, norm_sqr, norm_1, prod_apply, Fin.sum_univ_two, Matrix.vecHead,
      Matrix.vecTail]

/-- C18, evaluated where the launch stops short of the vector.  With a kernel object
of global work size `1` and the inputs `X = [[1,0],[0,1]]`, `Y = [0,1/2]`,
`Beta = [0,0]`, `L = 1`, `thres = 1`, the gradient is `g = [0,-1]`, so `Beta`
satisfies the optimality condition (`|g_i| ≤ thres` at every `Beta_i = 0`), and yet
`update_beta_ista` returns `[0,1]`, not `Beta`. -/
theorem update_beta_ista_optimum_not_fixed (p : Program) (L_0 : K) :
    (0 : K) < 1 ∧ (0 : K) ≤ 1
      ∧ (∀ i : Fin 2,
          ((![0, 0] : Fin 2 → K) i ≠ 0 →
              2 * ∑ j, (![![1, 0], ![0, 1]] : Fin 2 → Fin 2 → K) j i
                  * ((∑ k, (![![1, 0], ![0, 1]] : Fin 2 → Fin 2 → K) j k
                      * (![0, 0] : Fin 2 → K) k) - (![0, 1 / 2] : Fin 2 → K) j)
                = -1 * (SignType.sign ((![0, 0] : Fin 2 → K) i) : K))
          ∧ ((![0, 0] : Fin 2 → K) i = 0 →
              |2 * ∑ j, (![![1, 0], ![0, 1]] : Fin 2 → Fin 2 → K) j i
                  * ((∑ k, (![![1, 0], ![0, 1]] : Fin 2 → Fin 2 → K) j k
                      * (![0, 0] : Fin 2 → K) k) - (![0, 1 / 2] : Fin 2 → K) j)| ≤ 1))
      ∧ update_beta_ista (⟨⟨p, 1, none⟩, L_0⟩ : CL_SubGradientSolver K)
          ![![1, 0], ![0, 1]] ![0, 1 / 2] ![0, 0] 1 1 = ![0, 1]
      ∧ update_beta_ista (⟨⟨p, 1, none⟩, L_0⟩ : CL_SubGradientSolver K)
          ![![1, 0], ![0, 1]] ![0, 1 / 2] ![0, 0] 1 1 ≠ ![0, 0] := by
  have hB : update_beta_ista (⟨⟨p, 1, none⟩, L_0⟩ : CL_SubGradientSolver K)
      ![![1, 0], ![0, 1]] ![0, 1 / 2] ![0, 0] 1 1 = ![0, 1] := by
    funext i
    fin_cases i <;>
      simp [update_beta_ista_apply, update_beta_ista_locals, Program.SoftThreshold_eq,
        prod_apply, trans_apply, Fin.sum_univ_two, Matrix.vecHead, Matrix.vecTail]
  refine ⟨zero_lt_one, zero_le_one, ?_, hB, ?_⟩
  · intro i
    fin_cases i <;> simp [Fin.sum_univ_two]
  · rw [hB]
    intro h
    have h1 := congrFun h 1
    simp at h1

/-- C19: for `t ≥ 0` the `SoftThreshold` kernel is a non-expansive shrinkage: for all
elements `a`, `b`, `|SoftThreshold(a, t) − SoftThreshold(b, t)| ≤ |a − b|`; in
particular `|SoftThreshold(a, t)| ≤ |a|`, and the output never has the sign
opposite to `a`: it is `≥ 0` for `a ≥ 0` and `≤ 0` for `a ≤ 0`. -/
theorem SoftThreshold_nonexpansive (p : Program) (t : K) (ht : 0 ≤ t) (a b : K) :
    |p.SoftThreshold a t - p.SoftThreshold b t| ≤ |a - b|
      ∧ |p.SoftThreshold a t| ≤ |a|
      ∧ 0 ≤ a * p.SoftThreshold a t
      ∧ (0 ≤ a → 0 ≤ p.SoftThreshold a t)
      ∧ (a ≤ 0 → p.SoftThreshold a t ≤ 0) := by
  simp only [Program.SoftThreshold_eq_spec]
  refine ⟨soft_threshold_spec_nonexpansive a b t ht, soft_threshold_spec_abs_le a t ht,
    soft_threshold_spec_mul_nonneg a t ht, ?_, ?_⟩
  · intro ha
    rw [soft_threshold_spec_piecewise a t ht]
    split_ifs <;> linarith
  · intro ha
    rw [soft_threshold_spec_piecewise a t ht]
    split_ifs <;> linarith

theorem SoftThreshold_nonexpansive_witness :
    (0 : ℚ) ≤ 1 ∧
      (|Program.f_softthreshold_kernel.SoftThreshold (3 : ℚ) 1
          - Program.f_softthreshold_kernel.SoftThreshold (-1 / 2 : ℚ) 1| ≤ |(3 : ℚ) - -1 / 2|
        ∧ |Program.f_softthreshold_kernel.SoftThreshold (3 : ℚ) 1| ≤ |(3 : ℚ)|
        ∧ 0 ≤ (3 : ℚ) * Program.f_softthreshold_kernel.SoftThreshold (3 : ℚ) 1
        ∧ ((0 : ℚ) ≤ 3 → 0 ≤ Program.f_softthreshold_kernel.SoftThreshold (3 : ℚ) 1)
        ∧ ((3 : ℚ) ≤ 0 → Program.f_softthreshold_kernel.SoftThreshold (3 : ℚ) 1 ≤ 0)) :=
  ⟨zero_le_one, SoftThreshold_nonexpansive Program.f_softthreshold_kernel 1 zero_le_one 3 (-1 / 2)⟩

end internal

end foxfire
